import Mathlib

/-!
Verification of the FaceRec eigenface recognition engine.

The repository ships the Streamlit front-end (`FaceRec_Gui.py`); the engine
module `FaceRec` it imports (`load_model`, `quick_recognize`, plus the training
pipeline) is not part of the sources.  The engine is therefore modelled from
the design document: scalars are exact rationals, vectors are lists of
rationals, and matrices are lists of columns (the document's column-major
convention).  The square root — irrational on most inputs and hence not
representable exactly — is passed in as an explicit function parameter
`sqrt : ℚ → ℚ`; properties that do not depend on its numeric meaning are
proved for every such function.
-/

namespace FaceRec

/-- A face vector: a finite list of rational intensities. -/
abbrev Vec := List ℚ

/-- A matrix stored as its list of columns. -/
abbrev Mat := List Vec

/-- Componentwise vector addition. -/
def vadd (a b : Vec) : Vec := List.zipWith (· + ·) a b

/-- Componentwise vector subtraction. -/
def vsub (a b : Vec) : Vec := List.zipWith (· - ·) a b

/-- Scalar multiple of a vector. -/
def smul (c : ℚ) (v : Vec) : Vec := v.map (fun x => c * x)

/-- Dot product of two vectors. -/
def dot (a b : Vec) : ℚ := (List.zipWith (· * ·) a b).sum

/-- Sum of squares of the entries of a vector (the squared Euclidean norm). -/
def sumSq (v : Vec) : ℚ := dot v v

/-- Sum of a list of `D`-dimensional column vectors. -/
def vecSum (D : Nat) (cols : List Vec) : Vec :=
  cols.foldr vadd (List.replicate D 0)

/-- Modelled from the spec: the six-field `TrainedModel` bundle
`{MeanFace, EigenfaceBasis, Eigenvalues, ProjectedTraining, X, labels}` of
design-document section 3 (the engine module holding it is absent from the
sources).  `eigenfaceBasis` has `K` columns of length `D`,
`projectedTraining` has `N` columns of length `K`, `X` has `N` columns of
length `D`, `labels` has length `N`. -/
structure TrainedModel where
  meanFace : Vec
  eigenfaceBasis : Mat
  eigenvalues : List ℚ
  projectedTraining : Mat
  X : Mat
  labels : List String
deriving DecidableEq

/-- Modelled from the spec: the error taxonomy of design-document section 7. -/
inductive FaceRecError where
  | invalidImageFormat
  | dimensionMismatch
  | emptyCorpus
  | invalidK
  | insufficientRank (found : Nat)
  | eigensolverDidNotConverge (round : Nat)
  | modelNotFound
  | corruptModel
  | emptyModel
deriving DecidableEq

/-- Modelled from the spec: the shape-consistency predicate `load` validates
before returning a model — the two checks the document names explicitly
(`EigenfaceBasis` column count = `Eigenvalues` length, `ProjectedTraining`
column count = `labels` length) together with the remaining mutual shape
constraints of the data model ("tagged with their shapes, such that `load`
can validate consistency before returning"). -/
def consistentB (m : TrainedModel) : Bool :=
  (m.eigenfaceBasis.length == m.eigenvalues.length) &&
  (m.projectedTraining.length == m.labels.length) &&
  (m.X.length == m.labels.length) &&
  m.X.all (fun c => c.length == m.meanFace.length) &&
  m.eigenfaceBasis.all (fun c => c.length == m.meanFace.length) &&
  m.projectedTraining.all (fun c => c.length == m.eigenvalues.length)

/-- A stored artifact: a vector, a matrix, or a label sequence. -/
inductive Artifact where
  | vec (v : Vec)
  | mat (m : Mat)
  | labs (ls : List String)
deriving DecidableEq

/-- A storage destination: named artifacts, as the engine's `saved_models`
directory holds one file per model field. -/
abbrev Store := List (String × Artifact)

/-- The six artifact names a destination must hold, mirroring the tuple
order of the engine's `load_model` as the GUI receives it. -/
def requiredKeys : List String :=
  ["mean_face", "eigenfaces", "projected_train", "eigenvalues", "X", "labels"]

/-- Modelled from the spec: `save(model, destination)` of design-document
section 4.4 (the engine module is absent from the sources) — writes the six
fields of the model as named artifacts. -/
def save (m : TrainedModel) : Store :=
  [("mean_face", .vec m.meanFace),
   ("eigenfaces", .mat m.eigenfaceBasis),
   ("projected_train", .mat m.projectedTraining),
   ("eigenvalues", .vec m.eigenvalues),
   ("X", .mat m.X),
   ("labels", .labs m.labels)]

/-- Fetch a vector-shaped artifact; a present artifact of the wrong shape is
a corrupt store. -/
def getVec (s : Store) (k : String) : Except FaceRecError Vec :=
  match List.lookup k s with
  | none => .error .modelNotFound
  | some (.vec v) => .ok v
  | some _ => .error .corruptModel

/-- Fetch a matrix-shaped artifact. -/
def getMat (s : Store) (k : String) : Except FaceRecError Mat :=
  match List.lookup k s with
  | none => .error .modelNotFound
  | some (.mat m) => .ok m
  | some _ => .error .corruptModel

/-- Fetch the label sequence artifact. -/
def getLabs (s : Store) (k : String) : Except FaceRecError (List String) :=
  match List.lookup k s with
  | none => .error .modelNotFound
  | some (.labs ls) => .ok ls
  | some _ => .error .corruptModel

/-- Modelled from the spec: `load(source)` of design-document section 4.4
(the engine module is absent from the sources) — fails with `ModelNotFound`
when the destination lacks a required artifact, assembles the six fields,
and fails with `CorruptModel` unless the stored shapes are mutually
consistent; only a fully consistent model is returned. -/
def load (s : Store) : Except FaceRecError TrainedModel :=
  if requiredKeys.all (fun k => (List.lookup k s).isSome) then do
    let mf ← getVec s "mean_face"
    let ef ← getMat s "eigenfaces"
    let pt ← getMat s "projected_train"
    let ev ← getVec s "eigenvalues"
    let x ← getMat s "X"
    let ls ← getLabs s "labels"
    let m : TrainedModel := ⟨mf, ef, ev, pt, x, ls⟩
    if consistentB m then pure m else .error .corruptModel
  else .error .modelNotFound

/-- `toGrid` of design-document section 4.1: reshape a vector to a
`h × w` grid; defined exactly when the length matches, as numpy's
`reshape` in the GUI's display path. -/
def toGrid (v : Vec) (w h : Nat) : Option (List Vec) :=
  if v.length = w * h then
    some ((List.range h).map (fun r => (v.drop (r * w)).take w))
  else none

/-- The GUI's matched-image display path (`FaceRec_Gui.py` lines 267-281):
collect the training indices whose label equals the recognized result, take
the first, and reshape the corresponding column of `X` to a 100×100 grid. -/
def displayMatchedImage (m : TrainedModel) (result : String) : Option (List Vec) :=
  match (List.range m.labels.length).filter (fun i => m.labels.getD i "" == result) with
  | [] => none
  | i :: _ => toGrid (m.X.getD i []) 100 100

/-- A small fully consistent model over dimension `D = 4` (one 2×2 training
image), used as a concrete evaluation point. -/
def sampleModelA : TrainedModel :=
  { meanFace := [0, 0, 0, 0]
    eigenfaceBasis := []
    eigenvalues := []
    projectedTraining := [[]]
    X := [[1, 2, 3, 4]]
    labels := ["alice"] }

/-- A model whose eigenface-basis column count disagrees with its
eigenvalue count — a shape-inconsistent bundle. -/
def badModel : TrainedModel :=
  { meanFace := []
    eigenfaceBasis := [[]]
    eigenvalues := []
    projectedTraining := []
    X := []
    labels := [] }

/-- A ranked candidate: `(distance, label, trainingIndex)`. -/
abbrev Cand := ℚ × String × Nat

/-- Insert a candidate into a distance-sorted list, placing it before the
first strictly farther candidate and after earlier candidates at the same
distance — the stable placement the design document requires. -/
def insertCand (a : Cand) : List Cand → List Cand
  | [] => [a]
  | b :: bs => if a.1 ≤ b.1 then a :: b :: bs else b :: insertCand a bs

/-- Stable insertion sort of candidates, ascending by distance. -/
def sortCands : List Cand → List Cand
  | [] => []
  | a :: as => insertCand a (sortCands as)

/-- The strengthened candidate order: strictly closer first, and among
equal distances the smaller training index first. -/
def candOrder (x y : Cand) : Prop :=
  x.1 < y.1 ∨ (x.1 = y.1 ∧ x.2.2 < y.2.2)

/-- Walk the projected-training columns and the parallel labels from index
`i`, emitting one `(distance, label, index)` candidate per column, the
distance being the Euclidean norm (via the supplied square root) of the
difference from the projected query `p`. -/
def candListFrom (sqrt : ℚ → ℚ) (p : Vec) : Nat → Mat → List String → List Cand
  | _, [], _ => []
  | _, _ :: _, [] => []
  | i, c :: cs, l :: ls =>
      (sqrt (sumSq (vsub p c)), l, i) :: candListFrom sqrt p (i + 1) cs ls

/-- All candidates of a query: one per training column, indexed from 0. -/
def candList (sqrt : ℚ → ℚ) (p : Vec) (proj : Mat) (labels : List String) : List Cand :=
  candListFrom sqrt p 0 proj labels

/-- Centering and projection of a query vector:
`EigenfaceBasis^T * (query - MeanFace)`. -/
def projectQuery (q : Vec) (m : TrainedModel) : Vec :=
  m.eigenfaceBasis.map (fun c => dot c (vsub q m.meanFace))

/-- The Euclidean distance from the projected query to training column `i`
in eigenface space. -/
def queryDist (sqrt : ℚ → ℚ) (q : Vec) (m : TrainedModel) (i : Nat) : ℚ :=
  sqrt (sumSq (vsub (projectQuery q m) (m.projectedTraining.getD i [])))

/-- Modelled from the spec: the `MatchResult` bundle of design-document
section 3 (the engine module producing it is absent from the sources). -/
structure MatchResult where
  accepted : Bool
  bestLabel : String
  bestDistance : ℚ
  rankedCandidates : List Cand
deriving DecidableEq

/-- Modelled from the spec: `recognize` of design-document section 4.5 (the
engine's `quick_recognize` is absent from the sources).  Rejects an empty
model and a query/mean dimension mismatch; otherwise centers and projects
the query, computes the distance to every training projection, sorts the
`(distance, label, index)` candidates ascending by distance with the stable
earliest-index tie-break, takes the top `topN`, and accepts exactly when the
best distance is strictly below the threshold — the best label is reported
either way. -/
def recognize (sqrt : ℚ → ℚ) (query : Vec) (m : TrainedModel) (threshold : ℚ)
    (topN : Nat) : Except FaceRecError MatchResult :=
  if m.projectedTraining.length = 0 then .error .emptyModel
  else if query.length ≠ m.meanFace.length then .error .dimensionMismatch
  else
    match sortCands (candList sqrt (projectQuery query m) m.projectedTraining m.labels) with
    | [] => .error .emptyModel
    | best :: rest => .ok
        { accepted := decide (best.1 < threshold)
          bestLabel := best.2.1
          bestDistance := best.1
          rankedCandidates := (best :: rest).take topN }

/-- The GUI's cross-call session cache (`st.session_state` in
`FaceRec_Gui.py`): a loaded flag and the model fields. -/
structure SessionState where
  modelLoaded : Bool
  model : TrainedModel
deriving DecidableEq

/-- The GUI's recognize-button handler (`FaceRec_Gui.py` lines 216-304):
requires a loaded model, reads the model fields out of the session state,
runs recognition, and hands back the session state alongside the outcome —
the handler never writes the model fields, so a failing query leaves the
shared model untouched. -/
def recognizeButton (sqrt : ℚ → ℚ) (s : SessionState) (query : Vec)
    (threshold : ℚ) (topN : Nat) : SessionState × Except FaceRecError MatchResult :=
  if s.modelLoaded then (s, recognize sqrt query s.model threshold topN)
  else (s, .error .modelNotFound)

/-- Normalize a vector to unit Euclidean norm via the supplied square root. -/
def normalizeV (sqrt : ℚ → ℚ) (v : Vec) : Vec :=
  smul (sqrt (sumSq v))⁻¹ v

/-- Multiply a matrix (list of columns) by a coordinate vector:
the linear combination of the columns. -/
def matVecCols (cols : Mat) (u : Vec) : Vec :=
  vecSum (cols.headD []).length (List.zipWith smul u cols)

/-- The Rayleigh quotient `v^T * C * v` of a unit vector. -/
def rayleigh (C : Mat) (v : Vec) : ℚ :=
  dot v (matVecCols C v)

/-- Deflation: `C - lam * v * v^T`, removing a found eigencomponent. -/
def deflate (C : Mat) (lam : ℚ) (v : Vec) : Mat :=
  C.enum.map (fun jc => vsub jc.2 (smul (lam * v.getD jc.1 0) v))

/-- Modelled from the spec: one power-iteration run of design-document
section 4.2 (the engine's custom eigensolver is absent from the sources) —
repeatedly multiply by `C` and renormalize, stopping once the step moves
the iterate by at most `eps` or after the finite iteration cap. -/
def powerIterate (sqrt : ℚ → ℚ) (C : Mat) (eps : ℚ) : Nat → Vec → Vec
  | 0, v => v
  | t + 1, v =>
      let w := normalizeV sqrt (matVecCols C v)
      if sqrt (sumSq (vsub w v)) ≤ eps then w else powerIterate sqrt C eps t w

/-- Modelled from the spec: the power-iteration-with-deflation eigensolver
of design-document section 4.2 (absent from the sources).  `init` is the
deterministic initialization policy giving the start vector of each
deflation round; a round whose Rayleigh quotient is not above `eps` means
the matrix has no further non-trivial eigenvalue, so the solver stops early
and returns the fewer eigenpairs found (the `InsufficientRank` situation). -/
def eigensolver (sqrt : ℚ → ℚ) (eps : ℚ) (Tmax : Nat) (init : Nat → Vec) :
    Mat → Nat → Nat → List (ℚ × Vec)
  | _, 0, _ => []
  | C, k + 1, round =>
      let v := powerIterate sqrt C eps Tmax (init round)
      let lam := rayleigh C v
      if lam ≤ eps then []
      else (lam, v) :: eigensolver sqrt eps Tmax init (deflate C lam v) k (round + 1)

/-- The column-wise mean of a training matrix: the sum of the columns
scaled by `1 / N` (design-document section 4.3 step 1). -/
def meanOf (X : Mat) : Vec :=
  smul ((X.length : ℚ))⁻¹ (vecSum (X.headD []).length X)

/-- The centered training matrix `X_c`: every column with the mean face
subtracted (step 2). -/
def centered (X : Mat) : Mat :=
  X.map (fun c => vsub c (meanOf X))

/-- The dual Gram matrix `X_c^T * X_c`, of size `N × N` (step 3). -/
def gramOf (Xc : Mat) : Mat :=
  Xc.map (fun ci => Xc.map (fun cj => dot cj ci))

/-- Map dual eigenvectors back to unit `D`-dimensional eigenfaces:
`eigenface = (X_c * u) / norm (X_c * u)` (section 4.2 step 5). -/
def eigenfacesOf (sqrt : ℚ → ℚ) (Xc : Mat) (pairs : List (ℚ × Vec)) : Mat :=
  pairs.map (fun p => normalizeV sqrt (matVecCols Xc p.2))

/-- Modelled from the spec: `train` of design-document section 4.3 (the
engine's training pipeline is absent from the sources).  Computes the
column-wise mean face, centers the columns, forms the dual Gram matrix
`X_c^T * X_c`, runs the eigensolver, maps each dual eigenvector `u` back to
a unit eigenface `(X_c * u) / norm`, and projects every centered training
column onto the eigenface basis. -/
def train (sqrt : ℚ → ℚ) (eps : ℚ) (Tmax : Nat) (init : Nat → Vec) (X : Mat)
    (labels : List String) (K : Nat) : Except FaceRecError TrainedModel :=
  if X.length = 0 then .error .emptyCorpus
  else if K < 1 then .error .invalidK
  else
    let pairs := eigensolver sqrt eps Tmax init (gramOf (centered X)) K 0
    let eigenfaces := eigenfacesOf sqrt (centered X) pairs
    .ok { meanFace := meanOf X
          eigenfaceBasis := eigenfaces
          eigenvalues := pairs.map (fun p => p.1)
          projectedTraining := (centered X).map (fun c => eigenfaces.map (fun f => dot f c))
          X := X
          labels := labels }

/-- The result `recognize` yields for the query `[1, 2, 3, 4]` against
`sampleModelA` with threshold 1. -/
def demoResult : MatchResult :=
  { accepted := true
    bestLabel := "alice"
    bestDistance := 0
    rankedCandidates := [(0, "alice", 0)] }

theorem load_ok_consistent (s : Store) (m : TrainedModel) (h : load s = .ok m) :
    consistentB m = true := by
  unfold load at h
  split at h
  · cases hmf : getVec s "mean_face" with
    | error e => simp [hmf, bind, Except.bind] at h
    | ok mf =>
      cases hef : getMat s "eigenfaces" with
      | error e => simp [hmf, hef, bind, Except.bind] at h
      | ok ef =>
        cases hpt : getMat s "projected_train" with
        | error e => simp [hmf, hef, hpt, bind, Except.bind] at h
        | ok pt =>
          cases hev : getVec s "eigenvalues" with
          | error e => simp [hmf, hef, hpt, hev, bind, Except.bind] at h
          | ok ev =>
            cases hx : getMat s "X" with
            | error e => simp [hmf, hef, hpt, hev, hx, bind, Except.bind] at h
            | ok x =>
              cases hls : getLabs s "labels" with
              | error e => simp [hmf, hef, hpt, hev, hx, hls, bind, Except.bind] at h
              | ok ls =>
                simp only [hmf, hef, hpt, hev, hx, hls, bind, Except.bind] at h
                split at h
                · next hok =>
                    simp only [pure, Except.pure, Except.ok.injEq] at h
                    subst h
                    exact hok
                · simp at h
  · simp at h

theorem load_missing_key (s : Store) (k : String) (hk : k ∈ requiredKeys)
    (hn : List.lookup k s = none) : load s = .error .modelNotFound := by
  unfold load
  rw [if_neg]
  intro hall
  have := List.all_eq_true.mp hall k hk
  rw [hn] at this
  simp at this

theorem load_save_shape_mismatch (m : TrainedModel)
    (hm : m.eigenfaceBasis.length ≠ m.eigenvalues.length ∨
          m.projectedTraining.length ≠ m.labels.length) :
    load (save m) = .error .corruptModel := by
  have hc : consistentB m = false := by
    cases hc : consistentB m
    · rfl
    · exfalso
      simp only [consistentB, Bool.and_eq_true, beq_iff_eq] at hc
      rcases hm with hm | hm
      · exact hm hc.1.1.1.1.1
      · exact hm hc.1.1.1.1.2
  simp [load, save, getVec, getMat, getLabs, requiredKeys, List.lookup, hc,
    bind, Except.bind]

/-- Claim C5: for every shape-consistent `TrainedModel`, `load (save m)`
returns exactly `m` — all six fields round-trip, with the exact rational
values preserved. -/
theorem save_load_round_trip (m : TrainedModel) (h : consistentB m = true) :
    load (save m) = .ok m := by
  simp [load, save, getVec, getMat, getLabs, requiredKeys, List.lookup, h,
    bind, Except.bind, pure, Except.pure]

/-- Witness for C5 at the concrete model `sampleModelA`. -/
theorem save_load_round_trip_witness :
    consistentB sampleModelA = true ∧ load (save sampleModelA) = .ok sampleModelA :=
  ⟨by decide, save_load_round_trip sampleModelA (by decide)⟩


/-- Claim C6: `load` is all-or-nothing — every model it returns passes the
full shape-consistency validation; a destination lacking a required artifact
fails with `ModelNotFound`; stored shapes whose eigenface-basis column count
differs from the eigenvalue count, or whose projected-training column count
differs from the label count, fail with `CorruptModel`. -/
theorem load_all_or_nothing :
    (∀ s m, load s = .ok m → consistentB m = true) ∧
    (∀ s k, k ∈ requiredKeys → List.lookup k s = none →
      load s = .error .modelNotFound) ∧
    (∀ m : TrainedModel, m.eigenfaceBasis.length ≠ m.eigenvalues.length ∨
        m.projectedTraining.length ≠ m.labels.length →
      load (save m) = .error .corruptModel) :=
  ⟨load_ok_consistent, load_missing_key, load_save_shape_mismatch⟩

/-- Witness for C6 at concrete stores: the empty store misses every
artifact; `badModel` has a basis/eigenvalue count mismatch. -/
theorem load_all_or_nothing_witness :
    consistentB sampleModelA = true ∧
    load ([] : Store) = .error .modelNotFound ∧
    load (save badModel) = .error .corruptModel :=
  ⟨load_all_or_nothing.1 (save sampleModelA) sampleModelA (by rfl),
   load_all_or_nothing.2.1 [] "mean_face" (by decide) rfl,
   load_all_or_nothing.2.2 badModel (Or.inl (by decide))⟩

/-- Claim C10 counterexample: `sampleModelA` loads successfully, yet its
single training column has 4 elements, not 10000, and the GUI's display
path's 100×100 reshape of it fails. -/
theorem loaded_column_not_10000 :
    load (save sampleModelA) = .ok sampleModelA ∧
    (sampleModelA.X.getD 0 []).length ≠ 10000 ∧
    displayMatchedImage sampleModelA "alice" = none := by
  refine ⟨by rfl, by decide, by rfl⟩

/-- Claim C10 (amended): in every successfully loaded model each column of
`X` has exactly `meanFace.length` elements — the model's common dimension
`D` — and the display path's 100×100 reshape of a column succeeds exactly
when that dimension is 10000; `load` does not enforce `D = 10000`. -/
theorem loaded_column_dimension (s : Store) (m : TrainedModel)
    (h : load s = .ok m) :
    ∀ c ∈ m.X, c.length = m.meanFace.length ∧
      ((toGrid c 100 100).isSome ↔ c.length = 10000) := by
  intro c hc
  have hcons := load_ok_consistent s m h
  simp only [consistentB, Bool.and_eq_true, List.all_eq_true, beq_iff_eq] at hcons
  refine ⟨hcons.1.1.2 c hc, ?_⟩
  unfold toGrid
  split
  · next hl => simp [hl]
  · next hl => simp; omega

theorem insertCand_perm (a : Cand) (l : List Cand) : List.Perm (insertCand a l) (a :: l) := by
  induction l with
  | nil => exact List.Perm.refl _
  | cons b bs ih =>
    unfold insertCand
    split
    · exact List.Perm.refl _
    · exact (ih.cons b).trans (List.Perm.swap a b bs)

theorem sortCands_perm (l : List Cand) : List.Perm (sortCands l) l := by
  induction l with
  | nil => exact List.Perm.refl _
  | cons a as ih => exact (insertCand_perm a (sortCands as)).trans (ih.cons a)

theorem candOrder_le {x y : Cand} (h : candOrder x y) : x.1 ≤ y.1 :=
  h.elim le_of_lt (fun h2 => le_of_eq h2.1)

theorem insertCand_pairwise (a : Cand) (l : List Cand)
    (hl : List.Pairwise candOrder l) (ha : ∀ b ∈ l, a.2.2 < b.2.2) :
    List.Pairwise candOrder (insertCand a l) := by
  induction l with
  | nil => simp [insertCand, candOrder]
  | cons b bs ih =>
    rw [List.pairwise_cons] at hl
    unfold insertCand
    split
    · next hab =>
      refine List.Pairwise.cons ?_ (List.Pairwise.cons hl.1 hl.2)
      intro x hx
      rcases List.mem_cons.mp hx with rfl | hx
      · rcases lt_or_eq_of_le hab with h | h
        · exact Or.inl h
        · exact Or.inr ⟨h, ha x (List.mem_cons_self x bs)⟩
      · have hbx := candOrder_le (hl.1 x hx)
        rcases lt_or_eq_of_le (le_trans hab hbx) with h | h
        · exact Or.inl h
        · exact Or.inr ⟨h, ha x (List.mem_cons_of_mem b hx)⟩
    · next hab =>
      refine List.Pairwise.cons ?_ (ih hl.2 (fun x hx => ha x (List.mem_cons_of_mem b hx)))
      intro x hx
      have hx2 : x ∈ a :: bs := (insertCand_perm a bs).mem_iff.mp hx
      rcases List.mem_cons.mp hx2 with rfl | hx3
      · exact Or.inl (not_le.mp hab)
      · exact hl.1 x hx3

theorem sortCands_pairwise (l : List Cand)
    (hl : List.Pairwise (fun x y : Cand => x.2.2 < y.2.2) l) :
    List.Pairwise candOrder (sortCands l) := by
  induction l with
  | nil => simp [sortCands]
  | cons a as ih =>
    rw [List.pairwise_cons] at hl
    exact insertCand_pairwise a (sortCands as) (ih hl.2)
      (fun b hb => hl.1 b ((sortCands_perm as).mem_iff.mp hb))

theorem candListFrom_length (sqrt : ℚ → ℚ) (p : Vec) :
    ∀ (i : Nat) (cs : Mat) (ls : List String),
      (candListFrom sqrt p i cs ls).length = min cs.length ls.length := by
  intro i cs
  induction cs generalizing i with
  | nil => intro ls; simp [candListFrom]
  | cons c cs ih =>
    intro ls
    cases ls with
    | nil => simp [candListFrom]
    | cons l ls => simp [candListFrom, ih (i + 1) ls]; omega

theorem candListFrom_getD (sqrt : ℚ → ℚ) (p : Vec) :
    ∀ (i : Nat) (cs : Mat) (ls : List String) (j : Nat), j < cs.length → j < ls.length →
      (candListFrom sqrt p i cs ls).getD j (0, "", 0) =
        (sqrt (sumSq (vsub p (cs.getD j []))), ls.getD j "", i + j) := by
  intro i cs
  induction cs generalizing i with
  | nil => intro ls j h1 h2; simp at h1
  | cons c cs ih =>
    intro ls j h1 h2
    cases ls with
    | nil => simp at h2
    | cons l ls =>
      cases j with
      | zero => simp [candListFrom]
      | succ j =>
        have h1b : j < cs.length := by simpa using h1
        have h2b : j < ls.length := by simpa using h2
        have hstep : (candListFrom sqrt p i (c :: cs) (l :: ls)).getD (j + 1) (0, "", 0) =
            (candListFrom sqrt p (i + 1) cs ls).getD j (0, "", 0) := rfl
        have hidx : i + 1 + j = i + (j + 1) := by omega
        rw [hstep, ih (i + 1) ls j h1b h2b, List.getD_cons_succ, List.getD_cons_succ, hidx]

theorem candListFrom_mem_idx (sqrt : ℚ → ℚ) (p : Vec) :
    ∀ (i : Nat) (cs : Mat) (ls : List String) (x : Cand),
      x ∈ candListFrom sqrt p i cs ls → i ≤ x.2.2 := by
  intro i cs
  induction cs generalizing i with
  | nil => intro ls x hx; simp [candListFrom] at hx
  | cons c cs ih =>
    intro ls x hx
    cases ls with
    | nil => simp [candListFrom] at hx
    | cons l ls =>
      rcases List.mem_cons.mp hx with rfl | hx
      · simp
      · exact le_trans (by omega) (ih (i + 1) ls x hx)

theorem candListFrom_pairwise_idx (sqrt : ℚ → ℚ) (p : Vec) :
    ∀ (i : Nat) (cs : Mat) (ls : List String),
      List.Pairwise (fun x y : Cand => x.2.2 < y.2.2) (candListFrom sqrt p i cs ls) := by
  intro i cs
  induction cs generalizing i with
  | nil => intro ls; simp [candListFrom]
  | cons c cs ih =>
    intro ls
    cases ls with
    | nil => simp [candListFrom]
    | cons l ls =>
      refine List.Pairwise.cons ?_ (ih (i + 1) ls)
      intro y hy
      have := candListFrom_mem_idx sqrt p (i + 1) cs ls y hy
      show i < y.2.2
      omega

theorem candListFrom_mem_char (sqrt : ℚ → ℚ) (p : Vec) :
    ∀ (i : Nat) (cs : Mat) (ls : List String) (x : Cand),
      x ∈ candListFrom sqrt p i cs ls →
      ∃ j, j < cs.length ∧ j < ls.length ∧
        x = (sqrt (sumSq (vsub p (cs.getD j []))), ls.getD j "", i + j) := by
  intro i cs
  induction cs generalizing i with
  | nil => intro ls x hx; simp [candListFrom] at hx
  | cons c cs ih =>
    intro ls x hx
    cases ls with
    | nil => simp [candListFrom] at hx
    | cons l ls =>
      rcases List.mem_cons.mp hx with rfl | hx
      · exact ⟨0, by simp, by simp, by simp⟩
      · obtain ⟨j, hj1, hj2, hje⟩ := ih (i + 1) ls x hx
        refine ⟨j + 1, by simpa using hj1, by simpa using hj2, ?_⟩
        rw [hje]
        have hidx : i + 1 + j = i + (j + 1) := by omega
        rw [List.getD_cons_succ, List.getD_cons_succ, hidx]

theorem recognize_run (sqrt : ℚ → ℚ) (q : Vec) (m : TrainedModel) (t : ℚ) (topN : Nat)
    (hN : m.projectedTraining.length ≠ 0)
    (hL : m.labels.length = m.projectedTraining.length) :
    ∃ best rest,
      sortCands (candList sqrt (projectQuery q m) m.projectedTraining m.labels) =
        best :: rest ∧
      (q.length = m.meanFace.length →
        recognize sqrt q m t topN = .ok
          { accepted := decide (best.1 < t)
            bestLabel := best.2.1
            bestDistance := best.1
            rankedCandidates := (best :: rest).take topN }) := by
  have hlen : (sortCands (candList sqrt (projectQuery q m) m.projectedTraining m.labels)).length =
      m.projectedTraining.length := by
    rw [(sortCands_perm _).length_eq, candList, candListFrom_length, hL, min_self]
  cases hsort : sortCands (candList sqrt (projectQuery q m) m.projectedTraining m.labels) with
  | nil => rw [hsort] at hlen; simp at hlen; exact absurd hlen.symm hN
  | cons best rest =>
    refine ⟨best, rest, rfl, fun hq => ?_⟩
    unfold recognize
    rw [if_neg hN, if_neg (fun hc => hc hq), hsort]

theorem recognize_ok_inv (sqrt : ℚ → ℚ) (q : Vec) (m : TrainedModel) (t : ℚ) (topN : Nat)
    (r : MatchResult) (h : recognize sqrt q m t topN = .ok r) :
    ∃ best rest,
      sortCands (candList sqrt (projectQuery q m) m.projectedTraining m.labels) =
        best :: rest ∧
      r = { accepted := decide (best.1 < t)
            bestLabel := best.2.1
            bestDistance := best.1
            rankedCandidates := (best :: rest).take topN } := by
  unfold recognize at h
  split at h
  · exact absurd h (by simp)
  · split at h
    · exact absurd h (by simp)
    · split at h
      · exact absurd h (by simp)
      · next best rest heq =>
        exact ⟨best, rest, heq, by simpa using h.symm⟩

/-- Claim C2: for every query against a non-empty model (labels parallel to
the projected training columns, query dimension matching the mean face),
`recognize` succeeds, accepts exactly when the best distance is strictly
below the threshold, and — accepted or rejected — reports as `bestLabel`
the label of a nearest training column, so a rejection still carries the
nearest candidate's label. -/
theorem recognize_accept_iff_below_threshold (sqrt : ℚ → ℚ) (q : Vec)
    (m : TrainedModel) (t : ℚ) (topN : Nat)
    (hN : m.projectedTraining.length ≠ 0)
    (hL : m.labels.length = m.projectedTraining.length)
    (hq : q.length = m.meanFace.length) :
    ∃ r : MatchResult, recognize sqrt q m t topN = .ok r ∧
      (r.accepted = true ↔ r.bestDistance < t) ∧
      ∃ i, i < m.projectedTraining.length ∧
        r.bestLabel = m.labels.getD i "" ∧
        r.bestDistance = queryDist sqrt q m i ∧
        ∀ j, j < m.projectedTraining.length →
          r.bestDistance ≤ queryDist sqrt q m j := by
  obtain ⟨best, rest, hsort, hok⟩ := recognize_run sqrt q m t topN hN hL
  refine ⟨_, hok hq, by simp, ?_⟩
  have hmem : best ∈ candList sqrt (projectQuery q m) m.projectedTraining m.labels := by
    have hb : best ∈ sortCands (candList sqrt (projectQuery q m) m.projectedTraining m.labels) := by
      rw [hsort]; exact List.mem_cons_self _ _
    exact (sortCands_perm _).mem_iff.mp hb
  obtain ⟨j, hj1, hj2, hbe⟩ :=
    candListFrom_mem_char sqrt (projectQuery q m) 0 m.projectedTraining m.labels best hmem
  refine ⟨j, hj1, by simp [hbe], by simp [hbe, queryDist], ?_⟩
  intro j2 hj2b
  have hpair : List.Pairwise candOrder (best :: rest) := by
    rw [← hsort]
    exact sortCands_pairwise _
      (candListFrom_pairwise_idx sqrt (projectQuery q m) 0 m.projectedTraining m.labels)
  have hj2c : j2 < m.labels.length := by omega
  have hgd := candListFrom_getD sqrt (projectQuery q m) 0 m.projectedTraining m.labels j2 hj2b hj2c
  have hlenL : j2 < (candList sqrt (projectQuery q m) m.projectedTraining m.labels).length := by
    simp only [candList]
    rw [candListFrom_length]
    omega
  have hmem2 : (candList sqrt (projectQuery q m) m.projectedTraining m.labels).getD j2 (0, "", 0) ∈
      candList sqrt (projectQuery q m) m.projectedTraining m.labels := by
    rw [List.getD_eq_getElem _ _ hlenL]
    exact List.getElem_mem hlenL
  have hmem3 : (candList sqrt (projectQuery q m) m.projectedTraining m.labels).getD j2 (0, "", 0) ∈
      best :: rest := by
    rw [← hsort]
    exact (sortCands_perm _).mem_iff.mpr hmem2
  have hle : best.1 ≤
      ((candList sqrt (projectQuery q m) m.projectedTraining m.labels).getD j2 (0, "", 0)).1 := by
    rcases List.mem_cons.mp hmem3 with heqq | hmem4
    · exact le_of_eq (by rw [heqq])
    · exact candOrder_le ((List.pairwise_cons.mp hpair).1 _ hmem4)
  have hgd2 : (candList sqrt (projectQuery q m) m.projectedTraining m.labels).getD j2 (0, "", 0) =
      (sqrt (sumSq (vsub (projectQuery q m) (List.getD m.projectedTraining j2 []))),
        m.labels.getD j2 "", 0 + j2) := hgd
  rw [hgd2] at hle
  simpa [queryDist] using hle

/-- Witness for C2 at the concrete query `[1, 2, 3, 4]` against
`sampleModelA` with threshold 5. -/
theorem recognize_accept_iff_below_threshold_witness :
    sampleModelA.projectedTraining.length ≠ 0 ∧
    sampleModelA.labels.length = sampleModelA.projectedTraining.length ∧
    ([1, 2, 3, 4] : Vec).length = sampleModelA.meanFace.length ∧
    ∃ r : MatchResult, recognize id [1, 2, 3, 4] sampleModelA 5 3 = .ok r ∧
      (r.accepted = true ↔ r.bestDistance < 5) := by
  refine ⟨by decide, by decide, by decide, ?_⟩
  obtain ⟨r, h1, h2, _⟩ := recognize_accept_iff_below_threshold id [1, 2, 3, 4]
    sampleModelA 5 3 (by decide) (by decide) (by decide)
  exact ⟨r, h1, h2⟩

/-- Claim C3: for every query against a non-empty model, `recognize` builds
one `(distance, label, index)` candidate per training column — the distance
being the Euclidean distance from the projected query to that column — and
returns as `rankedCandidates` the first `topN` entries of a permutation of
those candidates that is sorted ascending by distance with the stable
earliest-training-index tie-break; `topN` is clamped to the corpus size. -/
theorem recognize_ranked_candidates (sqrt : ℚ → ℚ) (q : Vec)
    (m : TrainedModel) (t : ℚ) (topN : Nat)
    (hN : m.projectedTraining.length ≠ 0)
    (hL : m.labels.length = m.projectedTraining.length)
    (hq : q.length = m.meanFace.length) :
    ∃ (r : MatchResult) (ranked : List Cand),
      recognize sqrt q m t topN = .ok r ∧
      r.rankedCandidates = ranked.take topN ∧
      List.Perm ranked (candList sqrt (projectQuery q m) m.projectedTraining m.labels) ∧
      List.Pairwise candOrder ranked ∧
      r.rankedCandidates.length = min topN m.projectedTraining.length ∧
      ∀ j, j < m.projectedTraining.length →
        (candList sqrt (projectQuery q m) m.projectedTraining m.labels).getD j (0, "", 0) =
          (queryDist sqrt q m j, m.labels.getD j "", j) := by
  obtain ⟨best, rest, hsort, hok⟩ := recognize_run sqrt q m t topN hN hL
  have hlen : (best :: rest).length = m.projectedTraining.length := by
    rw [← hsort, (sortCands_perm _).length_eq]
    simp only [candList]
    rw [candListFrom_length, hL, min_self]
  refine ⟨_, best :: rest, hok hq, rfl, ?_, ?_, ?_, ?_⟩
  · rw [← hsort]; exact sortCands_perm _
  · rw [← hsort]
    exact sortCands_pairwise _
      (candListFrom_pairwise_idx sqrt (projectQuery q m) 0 m.projectedTraining m.labels)
  · simp [List.length_take, hlen]
  · intro j hj
    have hjc : j < m.labels.length := by omega
    have := candListFrom_getD sqrt (projectQuery q m) 0 m.projectedTraining m.labels j hj hjc
    simpa [candList, queryDist] using this

/-- Witness for C3 at the concrete query `[0, 0, 0, 0]` against
`sampleModelA` with `topN = 2` exceeding the corpus size 1. -/
theorem recognize_ranked_candidates_witness :
    sampleModelA.projectedTraining.length ≠ 0 ∧
    sampleModelA.labels.length = sampleModelA.projectedTraining.length ∧
    ([0, 0, 0, 0] : Vec).length = sampleModelA.meanFace.length ∧
    ∃ (r : MatchResult) (ranked : List Cand),
      recognize id [0, 0, 0, 0] sampleModelA (1 / 2) 2 = .ok r ∧
      r.rankedCandidates = ranked.take 2 ∧
      r.rankedCandidates.length = min 2 sampleModelA.projectedTraining.length := by
  refine ⟨by decide, by decide, by decide, ?_⟩
  obtain ⟨r, ranked, h1, h2, _, _, h5, _⟩ := recognize_ranked_candidates id [0, 0, 0, 0]
    sampleModelA (1 / 2) 2 (by decide) (by decide) (by decide)
  exact ⟨r, ranked, h1, h2, h5⟩

/-- Claim C7: with query, model and `topN` fixed, the accepted flag is
monotone in the threshold — accepted at `t1 ≤ t2` implies accepted at
`t2`. -/
theorem recognize_threshold_monotone (sqrt : ℚ → ℚ) (q : Vec) (m : TrainedModel)
    (topN : Nat) (t1 t2 : ℚ) (r1 r2 : MatchResult) (h12 : t1 ≤ t2)
    (h1 : recognize sqrt q m t1 topN = .ok r1)
    (h2 : recognize sqrt q m t2 topN = .ok r2)
    (hacc : r1.accepted = true) : r2.accepted = true := by
  obtain ⟨b1, rest1, hs1, he1⟩ := recognize_ok_inv sqrt q m t1 topN r1 h1
  obtain ⟨b2, rest2, hs2, he2⟩ := recognize_ok_inv sqrt q m t2 topN r2 h2
  rw [hs1] at hs2
  injection hs2 with hb hrest
  subst hb
  rw [he1] at hacc
  simp only [decide_eq_true_eq] at hacc
  rw [he2]
  simp only [decide_eq_true_eq]
  exact lt_of_lt_of_le hacc h12

/-- Witness for C7: the zero-distance query accepted at threshold 1 is
accepted at threshold 2. -/
theorem recognize_threshold_monotone_witness :
    (1 : ℚ) ≤ 2 ∧ demoResult.accepted = true :=
  ⟨by norm_num,
   recognize_threshold_monotone id [1, 2, 3, 4] sampleModelA 1 1 2 demoResult
     demoResult (by norm_num) rfl rfl rfl⟩

/-- Claim C9: `recognize` fails with `EmptyModel` on a model with no
training projections, fails with `DimensionMismatch` on a non-empty model
whenever the query length differs from the mean-face length, and the GUI's
recognize-button handler returns the session state — hence the shared
`TrainedModel` — unchanged on every query, failing or not. -/
theorem recognize_single_query_errors :
    (∀ (sqrt : ℚ → ℚ) (q : Vec) (m : TrainedModel) (t : ℚ) (topN : Nat),
        m.projectedTraining.length = 0 →
        recognize sqrt q m t topN = .error .emptyModel) ∧
    (∀ (sqrt : ℚ → ℚ) (q : Vec) (m : TrainedModel) (t : ℚ) (topN : Nat),
        m.projectedTraining.length ≠ 0 → q.length ≠ m.meanFace.length →
        recognize sqrt q m t topN = .error .dimensionMismatch) ∧
    (∀ (sqrt : ℚ → ℚ) (s : SessionState) (q : Vec) (t : ℚ) (topN : Nat),
        (recognizeButton sqrt s q t topN).1 = s) := by
  refine ⟨?_, ?_, ?_⟩
  · intro sqrt q m t topN h
    unfold recognize
    rw [if_pos h]
  · intro sqrt q m t topN hN hq
    unfold recognize
    rw [if_neg hN, if_pos hq]
  · intro sqrt s q t topN
    unfold recognizeButton
    split <;> rfl

/-- Witness for C9 at concrete inputs: `badModel` has no training
projections; the empty query mismatches `sampleModelA`'s dimension 4. -/
theorem recognize_single_query_errors_witness :
    recognize id [] badModel 0 0 = .error .emptyModel ∧
    recognize id [] sampleModelA 0 0 = .error .dimensionMismatch ∧
    (recognizeButton id ⟨true, sampleModelA⟩ [] 0 0).1 = ⟨true, sampleModelA⟩ :=
  ⟨recognize_single_query_errors.1 id [] badModel 0 0 rfl,
   recognize_single_query_errors.2.1 id [] sampleModelA 0 0 (by decide) (by decide),
   recognize_single_query_errors.2.2 id ⟨true, sampleModelA⟩ [] 0 0⟩

/-- Witness for C10 (amended) at the concrete store `save sampleModelA`. -/
theorem loaded_column_dimension_witness :
    ([1, 2, 3, 4] : Vec).length = sampleModelA.meanFace.length ∧
    ((toGrid ([1, 2, 3, 4] : Vec) 100 100).isSome ↔
      ([1, 2, 3, 4] : Vec).length = 10000) :=
  loaded_column_dimension (save sampleModelA) sampleModelA (by rfl)
    [1, 2, 3, 4] (by decide)

theorem length_vadd (a b : Vec) : (vadd a b).length = min a.length b.length := by
  simp [vadd]

theorem length_vsub (a b : Vec) : (vsub a b).length = min a.length b.length := by
  simp [vsub]

theorem length_smul (c : ℚ) (v : Vec) : (smul c v).length = v.length := by
  simp [smul]

theorem getD_vadd (a b : Vec) (h : a.length = b.length) (j : Nat) :
    (vadd a b).getD j 0 = a.getD j 0 + b.getD j 0 := by
  induction a generalizing b j with
  | nil =>
    cases b with
    | nil => simp [vadd]
    | cons y ys => simp at h
  | cons x xs ih =>
    cases b with
    | nil => simp at h
    | cons y ys =>
      cases j with
      | zero => simp [vadd]
      | succ j =>
        have hstep : (vadd (x :: xs) (y :: ys)).getD (j + 1) 0 =
            (vadd xs ys).getD j 0 := rfl
        rw [hstep, List.getD_cons_succ, List.getD_cons_succ, ih ys (by simpa using h) j]

theorem getD_vsub (a b : Vec) (h : a.length = b.length) (j : Nat) :
    (vsub a b).getD j 0 = a.getD j 0 - b.getD j 0 := by
  induction a generalizing b j with
  | nil =>
    cases b with
    | nil => simp [vsub]
    | cons y ys => simp at h
  | cons x xs ih =>
    cases b with
    | nil => simp at h
    | cons y ys =>
      cases j with
      | zero => simp [vsub]
      | succ j =>
        have hstep : (vsub (x :: xs) (y :: ys)).getD (j + 1) 0 =
            (vsub xs ys).getD j 0 := rfl
        rw [hstep, List.getD_cons_succ, List.getD_cons_succ, ih ys (by simpa using h) j]

theorem getD_smul (c : ℚ) (v : Vec) (j : Nat) :
    (smul c v).getD j 0 = c * v.getD j 0 := by
  induction v generalizing j with
  | nil => simp [smul]
  | cons x xs ih =>
    cases j with
    | zero => simp [smul]
    | succ j =>
      have hstep : (smul c (x :: xs)).getD (j + 1) 0 = (smul c xs).getD j 0 := rfl
      rw [hstep, List.getD_cons_succ, ih j]

theorem getD_replicate_zero (D j : Nat) : (List.replicate D (0 : ℚ)).getD j 0 = 0 := by
  induction D generalizing j with
  | zero => simp
  | succ D ih =>
    cases j with
    | zero => simp
    | succ j => rw [List.replicate_succ, List.getD_cons_succ, ih j]

theorem vecSum_length (D : Nat) (cols : List Vec) (h : ∀ c ∈ cols, c.length = D) :
    (vecSum D cols).length = D := by
  induction cols with
  | nil => simp [vecSum]
  | cons c cs ih =>
    have hc : c.length = D := h c (List.mem_cons_self c cs)
    have hcs := ih (fun x hx => h x (List.mem_cons_of_mem c hx))
    show (vadd c (vecSum D cs)).length = D
    rw [length_vadd, hc, hcs, min_self]

theorem vecSum_getD (D : Nat) (cols : List Vec) (h : ∀ c ∈ cols, c.length = D) (j : Nat) :
    (vecSum D cols).getD j 0 = (cols.map (fun c => c.getD j 0)).sum := by
  induction cols with
  | nil => simp [vecSum, getD_replicate_zero]
  | cons c cs ih =>
    have hc : c.length = D := h c (List.mem_cons_self c cs)
    have htail : ∀ x ∈ cs, x.length = D := fun x hx => h x (List.mem_cons_of_mem c hx)
    have hlen : c.length = (vecSum D cs).length := by rw [hc, vecSum_length D cs htail]
    have hstep : (vecSum D (c :: cs)).getD j 0 = (vadd c (vecSum D cs)).getD j 0 := rfl
    rw [hstep, getD_vadd _ _ hlen, ih htail]
    simp

theorem sum_map_sub (l : List Vec) (f g : Vec → ℚ) :
    (l.map (fun c => f c - g c)).sum = (l.map f).sum - (l.map g).sum := by
  induction l with
  | nil => simp
  | cons c cs ih =>
    simp only [List.map_cons, List.sum_cons, ih]
    ring

theorem sum_map_const (l : List Vec) (a : ℚ) :
    (l.map (fun _ => a)).sum = (l.length : ℚ) * a := by
  induction l with
  | nil => simp
  | cons c cs ih =>
    simp only [List.map_cons, List.sum_cons, ih, List.length_cons]
    push_cast
    ring

theorem getD_map_lt {α β : Type} (l : List α) (f : α → β) (i : Nat)
    (h : i < l.length) (d : β) (d0 : α) :
    (l.map f).getD i d = f (l.getD i d0) := by
  rw [List.getD_eq_getElem _ _ (by simpa using h), List.getD_eq_getElem _ _ h,
    List.getElem_map]

theorem meanOf_length (X : Mat) (D : Nat) (hD : ∀ c ∈ X, c.length = D)
    (hX : X ≠ []) : (meanOf X).length = D := by
  have hD0 : (X.headD []).length = D := by
    cases X with
    | nil => exact absurd rfl hX
    | cons c cs => exact hD c (List.mem_cons_self c cs)
  rw [meanOf, length_smul, hD0, vecSum_length D X hD]

theorem meanOf_getD (X : Mat) (D : Nat) (hD : ∀ c ∈ X, c.length = D)
    (hX : X ≠ []) (j : Nat) :
    (meanOf X).getD j 0 = (X.map (fun c => c.getD j 0)).sum / (X.length : ℚ) := by
  have hD0 : (X.headD []).length = D := by
    cases X with
    | nil => exact absurd rfl hX
    | cons c cs => exact hD c (List.mem_cons_self c cs)
  rw [meanOf, getD_smul, hD0, vecSum_getD D X hD]
  rw [inv_mul_eq_div]

theorem centered_sum_zero (X : Mat) (D : Nat) (hD : ∀ c ∈ X, c.length = D)
    (hX : X ≠ []) :
    vecSum D (X.map (fun c => vsub c (meanOf X))) = List.replicate D 0 := by
  have hN0 : X.length ≠ 0 := fun h0 => hX (List.length_eq_zero.mp h0)
  have hNQ : (X.length : ℚ) ≠ 0 := Nat.cast_ne_zero.mpr hN0
  have hmlen : (meanOf X).length = D := meanOf_length X D hD hX
  have hclen : ∀ c ∈ X.map (fun c => vsub c (meanOf X)), c.length = D := by
    intro c hc
    obtain ⟨c0, hc0, rfl⟩ := List.mem_map.mp hc
    rw [length_vsub, hD c0 hc0, hmlen, min_self]
  have hlen2 : (vecSum D (X.map (fun c => vsub c (meanOf X)))).length = D :=
    vecSum_length D _ hclen
  refine List.ext_getElem (by rw [hlen2, List.length_replicate]) ?_
  intro j hj1 hj2
  rw [← List.getD_eq_getElem _ 0 hj1, ← List.getD_eq_getElem _ 0 hj2,
    getD_replicate_zero, vecSum_getD D _ hclen, List.map_map]
  have hmap : (X.map ((fun c => c.getD j 0) ∘ fun c => vsub c (meanOf X))) =
      X.map (fun c => c.getD j 0 - (meanOf X).getD j 0) := by
    refine List.map_congr_left ?_
    intro c hc
    exact getD_vsub c (meanOf X) (by rw [hD c hc, hmlen]) j
  rw [hmap, sum_map_sub]
  have hconst : (X.map (fun _ => (meanOf X).getD j 0)).sum =
      (X.length : ℚ) * (meanOf X).getD j 0 := sum_map_const X _
  rw [hconst, meanOf_getD X D hD hX j]
  field_simp

theorem train_unfold (sqrt : ℚ → ℚ) (eps : ℚ) (Tmax : Nat) (init : Nat → Vec)
    (X : Mat) (labels : List String) (K : Nat)
    (hN0 : X.length ≠ 0) (hK2 : ¬(K < 1)) :
    train sqrt eps Tmax init X labels K = .ok
      { meanFace := meanOf X
        eigenfaceBasis := eigenfacesOf sqrt (centered X)
          (eigensolver sqrt eps Tmax init (gramOf (centered X)) K 0)
        eigenvalues := (eigensolver sqrt eps Tmax init (gramOf (centered X)) K 0).map
          (fun p => p.1)
        projectedTraining := (centered X).map (fun c =>
          (eigenfacesOf sqrt (centered X)
            (eigensolver sqrt eps Tmax init (gramOf (centered X)) K 0)).map
          (fun f => dot f c))
        X := X
        labels := labels } := by
  unfold train
  rw [if_neg hN0, if_neg hK2]

/-- Claim C4: on a non-empty uniform-dimension corpus with `K ≥ 1`, `train`
succeeds; the produced `MeanFace` is the column-wise mean of `X` (entry `j`
is the sum of the `j`-th entries over the columns divided by `N`), the
centered columns sum to the zero vector exactly, and column `i` of
`ProjectedTraining` equals `EigenfaceBasis^T * (X.column i - MeanFace)` for
every `i < N`. -/
theorem train_mean_centering (sqrt : ℚ → ℚ) (eps : ℚ) (Tmax : Nat)
    (init : Nat → Vec) (X : Mat) (labels : List String) (K D : Nat)
    (hD : ∀ c ∈ X, c.length = D) (hX : X ≠ []) (hK : 1 ≤ K) :
    ∃ m : TrainedModel, train sqrt eps Tmax init X labels K = .ok m ∧
      m.X = X ∧
      (∀ j : Nat, m.meanFace.getD j 0 =
        (X.map (fun c => c.getD j 0)).sum / (X.length : ℚ)) ∧
      vecSum D (X.map (fun c => vsub c m.meanFace)) = List.replicate D 0 ∧
      ∀ i, i < X.length →
        m.projectedTraining.getD i [] =
          m.eigenfaceBasis.map (fun f => dot f (vsub (X.getD i []) m.meanFace)) := by
  have hN0 : X.length ≠ 0 := fun h0 => hX (List.length_eq_zero.mp h0)
  have hK2 : ¬(K < 1) := Nat.not_lt.mpr hK
  have htr := train_unfold sqrt eps Tmax init X labels K hN0 hK2
  refine ⟨_, htr, rfl, ?_, ?_, ?_⟩
  · intro j
    exact meanOf_getD X D hD hX j
  · exact centered_sum_zero X D hD hX
  · intro i hi
    have hi2 : i < (centered X).length := by simpa [centered] using hi
    have hstep := getD_map_lt (centered X)
      (fun c => (eigenfacesOf sqrt (centered X)
        (eigensolver sqrt eps Tmax init (gramOf (centered X)) K 0)).map
        (fun f => dot f c)) i hi2 [] []
    have hcent : (centered X).getD i [] = vsub (X.getD i []) (meanOf X) :=
      getD_map_lt X (fun c => vsub c (meanOf X)) i hi [] []
    show ((centered X).map _).getD i [] = _
    rw [hstep, hcent]

/-- Witness for C4 on the two-image one-dimensional corpus `[[1], [3]]`. -/
theorem train_mean_centering_witness :
    (∀ c ∈ ([[1], [3]] : Mat), c.length = 1) ∧
    ∃ m : TrainedModel,
      train id 0 0 (fun _ => [1]) [[1], [3]] ["a", "b"] 1 = .ok m ∧
      vecSum 1 (([[1], [3]] : Mat).map (fun c => vsub c m.meanFace)) =
        List.replicate 1 0 := by
  refine ⟨by decide, ?_⟩
  obtain ⟨m, h1, _, _, h4, _⟩ := train_mean_centering id 0 0 (fun _ => [1])
    [[1], [3]] ["a", "b"] 1 1 (by decide) (by decide) (by decide)
  exact ⟨m, h1, h4⟩

/-- Claim C8: `train` is deterministic — two invocations on the identical
corpus, `K`, tolerance, iteration cap and initialization policy yield the
same `MeanFace`, `Eigenvalues` and `EigenfaceBasis` (here exactly equal,
sign flips included, since the embedding is a pure function of its
inputs). -/
theorem train_deterministic (sqrt : ℚ → ℚ) (eps : ℚ) (Tmax : Nat)
    (init : Nat → Vec) (X : Mat) (labels : List String) (K : Nat)
    (m1 m2 : TrainedModel)
    (h1 : train sqrt eps Tmax init X labels K = .ok m1)
    (h2 : train sqrt eps Tmax init X labels K = .ok m2) :
    m1.meanFace = m2.meanFace ∧ m1.eigenvalues = m2.eigenvalues ∧
    m1.eigenfaceBasis = m2.eigenfaceBasis := by
  rw [h1] at h2
  injection h2 with h
  rw [h]
  exact ⟨rfl, rfl, rfl⟩

/-- Witness for C8 on the one-image corpus `[[2]]`: the two (identical)
invocations produce a model with equal mean face, eigenvalues and basis. -/
theorem train_deterministic_witness :
    ∃ m : TrainedModel, train id 0 0 (fun _ => [1]) [[2]] ["a"] 1 = .ok m ∧
      (m.meanFace = m.meanFace ∧ m.eigenvalues = m.eigenvalues ∧
        m.eigenfaceBasis = m.eigenfaceBasis) := by
  have h := train_unfold id 0 0 (fun _ => [1]) [[2]] ["a"] 1 (by decide) (by decide)
  exact ⟨_, h, train_deterministic id 0 0 (fun _ => [1]) [[2]] ["a"] 1 _ _ h h⟩

end FaceRec
